import Mathlib

/-!
Verification of the geometric projection and visibility-segmentation engine
of `poincare.c` (mapping of Stokes-parameter trajectories onto the Poincaré
sphere).  The definitions below are shallow embeddings of the C routines,
keeping their names; machine doubles are modelled by real numbers, 1-based
C arrays by functions `ℕ → Bool` together with an explicit element count,
and the C while-loops by fuel-based recursion whose fuel is large enough
to reproduce the loop exactly on every reachable state.
-/

namespace Poincare

/- ----------------------------------------------------------------- -/
/-  Static maxima (poincare.c lines 390-392) and label-position codes
    (lines 433-441), and the viewtype flags (lines 448-449).          -/
/- ----------------------------------------------------------------- -/

def MAX_NUM_STOKE_COORDS : ℕ := 5000

def MAX_NUM_TICKMARKS : ℕ := MAX_NUM_STOKE_COORDS / 10

def MAX_NUM_LABELS : ℕ := MAX_NUM_TICKMARKS / 10

def NOLABEL : ℕ := 0
def TOPLABEL : ℕ := 1
def UPPERLEFTLABEL : ℕ := 2
def LEFTLABEL : ℕ := 3
def LOWERLEFTLABEL : ℕ := 4
def BOTTOMLABEL : ℕ := 5
def LOWERRIGHTLABEL : ℕ := 6
def RIGHTLABEL : ℕ := 7
def UPPERRIGHTLABEL : ℕ := 8

/-- Viewtype flag HIDDEN (the C `#define HIDDEN (0)`). -/
def HIDDEN : Bool := false

/-- Viewtype flag VISIBLE (the C `#define VISIBLE (1)`). -/
def VISIBLE : Bool := true

/- ----------------------------------------------------------------- -/
/-  Frame transform and visibility classifier (lines 2176-2186 and
    2253-2264 of poincare.c).                                         -/
/- ----------------------------------------------------------------- -/

/-- The scalar product computed by `visible()` (poincare.c 2176-2180):
`vprod = s1*cos(rot_psi)*cos(rot_phi) - s2*sin(rot_psi)*cos(rot_phi)
        + s3*sin(rot_phi)`. -/
noncomputable def vprod (s1 s2 s3 psi phi : ℝ) : ℝ :=
  s1 * Real.cos psi * Real.cos phi - s2 * Real.sin psi * Real.cos phi
    + s3 * Real.sin phi

/-- The classifier `visible()` (poincare.c 2176-2186): returns 1 (here
`true`) when `vprod >= 0.0`, otherwise 0 (here `false`). -/
noncomputable def visible (s1 s2 s3 psi phi : ℝ) : Bool :=
  if 0 ≤ vprod s1 s2 s3 psi phi then true else false

/-- The projection `get_screen_coordinates()` (poincare.c 2253-2264):
`x = s1*sin(psi)+s2*cos(psi)`,
`y = -s1*cos(psi)*sin(phi)+s2*sin(psi)*sin(phi)+s3*cos(phi)`, both divided
by `sqrt(s1^2+s2^2+s3^2)` when `use_normalized_stokes_params` is set. -/
noncomputable def get_screen_coordinates (s1 s2 s3 psi phi : ℝ)
    (use_normalized_stokes_params : Bool) : ℝ × ℝ :=
  let x := s1 * Real.sin psi + s2 * Real.cos psi
  let y := -s1 * Real.cos psi * Real.sin phi
             + s2 * Real.sin psi * Real.sin phi + s3 * Real.cos phi
  if use_normalized_stokes_params then
    let snorm := Real.sqrt (s1 * s1 + s2 * s2 + s3 * s3)
    (x / snorm, y / snorm)
  else
    (x, y)

/- ----------------------------------------------------------------- -/
/-  Classified trajectories and the run predicates (lines 2198-2244). -/
/- ----------------------------------------------------------------- -/

/-- A classified Stokes trajectory: the per-point visibility flags of the
C struct `stoketraject` after `sort_out_visible_and_hidden()` has run.
Indices are 1-based as in the C arrays; `visible k` for `k` outside
`1..numcoords` is never consulted by the loops below. -/
structure StokeTraject where
  numcoords : ℕ
  visible : ℕ → Bool

/-- Common shape of `point_just_became_hidden()` (poincare.c 2198-2220)
and `point_just_became_visible()` (2222-2244): point `k` is of class `c`
while point `k-1` is of the other class, or `k = 1` and point 1 is of
class `c` (`c = false` for hidden, `c = true` for visible).  The C
routines abort on `k` outside `1..numcoords`; every call below keeps `k`
in range. -/
def just_became (st : StokeTraject) (c : Bool) (k : ℕ) : Bool :=
  if k = 1 then st.visible 1 == c
  else (st.visible k == c) && (st.visible (k - 1) == !c)

/-- The C routine `point_just_became_hidden()` (poincare.c 2198-2220). -/
def point_just_became_hidden (st : StokeTraject) (k : ℕ) : Bool :=
  just_became st false k

/-- The C routine `point_just_became_visible()` (poincare.c 2222-2244). -/
def point_just_became_visible (st : StokeTraject) (k : ℕ) : Bool :=
  just_became st true k

/- ----------------------------------------------------------------- -/
/-  The trajectory segmenter (lines 2334-2394).                       -/
/- ----------------------------------------------------------------- -/

/-- Inner while-loop shared by `add_hidden_subtrajectories()` (poincare.c
2341-2347) and `add_visible_subtrajectories()` (2370-2376):
`while ((k<=numcoords)&&(kb<ka)) { if (just_became(stopc,k)) kb=k-1; else k++; }`;
the result is the final value of `k` (the C code recomputes `kb = k-1`
after the loop, so the in-loop `kb` only controls the exit test).  `fuel`
bounds the iteration count; every call below supplies `numcoords + 2`
units, which the lemmas show is enough for the loop to reach its exit
condition on every reachable state. -/
def subtraj_scan (st : StokeTraject) (stopc : Bool) :
    ℕ → ℕ → ℕ → ℕ → ℕ
  | 0, k, _, _ => k
  | fuel + 1, k, ka, kb =>
    if k ≤ st.numcoords ∧ kb < ka then
      if just_became st stopc k then subtraj_scan st stopc fuel k ka (k - 1)
      else subtraj_scan st stopc fuel (k + 1) ka kb
    else k

/-- Outer sweep shared by `add_hidden_subtrajectories()` (poincare.c
2334-2358) and, up to the boundary extension, by
`add_visible_subtrajectories()` (2363-2394): scan `k = 1..numcoords`; when
point `k` just became of class `c` take `ka = k`, run the inner loop to
find the end of the run, emit the pair `(ka, kb)` with `kb = k-1` for the
final `k`, and resume the outer scan at the following index (the C's
`k++` after the emission).  Emits the CORE index ranges, without the
visible-pass boundary extension. -/
def core_sweep_aux (st : StokeTraject) (c : Bool) :
    ℕ → ℕ → List (ℕ × ℕ)
  | 0, _ => []
  | fuel + 1, k =>
    if k ≤ st.numcoords then
      if just_became st c k then
        let k2 := subtraj_scan st (!c) (st.numcoords + 2) k k (k - 1)
        (k, k2 - 1) :: core_sweep_aux st c fuel (k2 + 1)
      else
        core_sweep_aux st c fuel (k + 1)
    else []

/-- The run list of `add_hidden_subtrajectories()` (poincare.c 2334-2358):
hidden runs, emitted with exact boundaries. -/
def add_hidden_subtrajectories (st : StokeTraject) : List (ℕ × ℕ) :=
  core_sweep_aux st false (st.numcoords + 1) 1

/-- The core index ranges found by `add_visible_subtrajectories()`
(poincare.c 2363-2377), before the boundary extension of lines 2388-2389
is applied. -/
def visible_core_runs (st : StokeTraject) : List (ℕ × ℕ) :=
  core_sweep_aux st true (st.numcoords + 1) 1

/-- The boundary extension of `add_visible_subtrajectories()` (poincare.c
2388-2389): `if (ka>1) ka--; if (kb<numcoords) kb++;`. -/
def extend_run (st : StokeTraject) (r : ℕ × ℕ) : ℕ × ℕ :=
  (if 1 < r.1 then r.1 - 1 else r.1,
   if r.2 < st.numcoords then r.2 + 1 else r.2)

/-- The run list of `add_visible_subtrajectories()` (poincare.c
2363-2394), literally: the same sweep as the hidden routine with the two
predicates interchanged, each run extended by lines 2388-2389 before
emission. -/
def add_visible_subtrajectories (st : StokeTraject) :
    ℕ → ℕ → List (ℕ × ℕ)
  | 0, _ => []
  | fuel + 1, k =>
    if k ≤ st.numcoords then
      if just_became st true k then
        let k2 := subtraj_scan st false (st.numcoords + 2) k k (k - 1)
        let ka := k
        let kb := k2 - 1
        let ka' := if 1 < ka then ka - 1 else ka
        let kb' := if kb < st.numcoords then kb + 1 else kb
        (ka', kb') :: add_visible_subtrajectories st fuel (k2 + 1)
      else
        add_visible_subtrajectories st fuel (k + 1)
    else []

/-- The emitted (extended) visible runs of a trajectory. -/
def visible_runs (st : StokeTraject) : List (ℕ × ℕ) :=
  add_visible_subtrajectories st (st.numcoords + 1) 1

/- ----------------------------------------------------------------- -/
/-  Sub-path emission (lines 2266-2315) and the two-pass main flow
    (lines 2396-2408, 2632-2720, 3168-3190).                          -/
/- ----------------------------------------------------------------- -/

/-- One drawable sub-path primitive: the class it was emitted for (the
`type` argument of `add_subtrajectory()`, `false` for "hidden" and `true`
for "visible") and the 1-based point indices drawn. -/
structure SubPath where
  cls : Bool
  pts : List ℕ
deriving DecidableEq

/-- The drawable sub-paths of `add_subtrajectory()` (poincare.c
2266-2315): one path through points `ka..kb` when `ka < kb` (the C draws
inside `if (ka<kb)`, "only draw paths of two points or more"), nothing
otherwise. -/
def add_subtrajectory (ka kb : ℕ) (cls : Bool) : List SubPath :=
  if ka < kb then [⟨cls, List.range' ka (kb + 1 - ka)⟩] else []

/-- Sub-paths written by the hidden sweep of one trajectory: the calls
`add_subtrajectory(...,"hidden")` made by `add_hidden_subtrajectories()`
in run order. -/
def emit_hidden (st : StokeTraject) : List SubPath :=
  (add_hidden_subtrajectories st).flatMap fun r => add_subtrajectory r.1 r.2 false

/-- Sub-paths written by the visible sweep of one trajectory: the calls
`add_subtrajectory(...,"visible")` made by `add_visible_subtrajectories()`
in run order, on the extended runs. -/
def emit_visible (st : StokeTraject) : List SubPath :=
  (visible_runs st).flatMap fun r => add_subtrajectory r.1 r.2 true

/-- The dispatch of `add_scanned_trajectory()` (poincare.c 2396-2408): with
`viewtype == HIDDEN` only the hidden sub-trajectories are flushed, with
`viewtype == VISIBLE` only the visible ones. -/
def add_scanned_trajectory (st : StokeTraject) (viewtype : Bool) :
    List SubPath :=
  if viewtype = HIDDEN then emit_hidden st else emit_visible st

/-- One pass of `write_scanned_trajectories()` (poincare.c 2632-2720) at
the sub-path level: the routine reopens the input file, scans every
trajectory record in order and flushes each through
`add_scanned_trajectory()` with the given viewtype.  (The tick-mark and
text-label primitives it also writes are not sub-paths and are outside
the sub-path ordering claims.) -/
def write_scanned_trajectories (trajs : List StokeTraject)
    (viewtype : Bool) : List SubPath :=
  trajs.flatMap fun st => add_scanned_trajectory st viewtype

/-- The sub-path sequence produced by `main()` (poincare.c 3181-3182):
`write_scanned_trajectories(outfileptr,map,HIDDEN);` followed by
`write_scanned_trajectories(outfileptr,map,VISIBLE);` — two full
top-level passes over the same input file (the routine reopens the file
each time). -/
def main_output (trajs : List StokeTraject) : List SubPath :=
  write_scanned_trajectories trajs HIDDEN
    ++ write_scanned_trajectories trajs VISIBLE

/-- The classification loop `sort_out_visible_and_hidden()` (poincare.c
2320-2329): `visible[k] = visible(s1[k],s2[k],s3[k],map)` for
`k = 1..numcoords`.  Points are the 1-based list of Stokes triplets; flags
outside the index range are left 0 (`reset_stokes_trajectory_struct`). -/
noncomputable def sort_out_visible_and_hidden (pts : List (ℝ × ℝ × ℝ))
    (psi phi : ℝ) : StokeTraject :=
  ⟨pts.length, fun k =>
    if 1 ≤ k ∧ k ≤ pts.length then
      let p := pts.getD (k - 1) (0, 0, 0)
      visible p.1 p.2.1 p.2.2 psi phi
    else false⟩

/- ----------------------------------------------------------------- -/
/-  Label scanning (lines 2031-2135, 2465-2473).                      -/
/- ----------------------------------------------------------------- -/

/-- The position-string dispatch of `scan_label()` (poincare.c 2049-2070):
the eight accepted strings and the code stored for each; any other string
hits the `Invalid string ... exit(1)` branch, modelled by `none`. -/
def scan_label_position (s : String) : Option ℕ :=
  if s = "top" then some TOPLABEL
  else if s = "ulft" then some UPPERLEFTLABEL
  else if s = "lft" then some LEFTLABEL
  else if s = "llft" then some LOWERLEFTLABEL
  else if s = "bot" then some BOTTOMLABEL
  else if s = "lrgt" then some LOWERRIGHTLABEL
  else if s = "rgt" then some RIGHTLABEL
  else if s = "urgt" then some UPPERRIGHTLABEL
  else none

/-- The label arrays of the `stoketraject` struct: the label counter
`numlabels` and, per slot index, the stored entry `(coordnum, payload)`
(the payload standing for the position code and text that `scan_label()`
writes into `labelpos`, `labeltext` and `labellength`). -/
structure LabelArrays where
  numlabels : ℕ
  slot : ℕ → Option (ℕ × ℕ)

/-- Fresh label arrays, as after `reset_stokes_trajectory_struct()`
(poincare.c 1171-1177): `numlabels = 0`, every slot cleared. -/
def init_labels : LabelArrays := ⟨0, fun _ => none⟩

/-- The writing part of `scan_label()` (poincare.c 2031-2105): store the
scanned entry in slot `lnum`. -/
def scan_label (A : LabelArrays) (lnum coordnum payload : ℕ) :
    LabelArrays :=
  ⟨A.numlabels, fun i => if i = lnum then some (coordnum, payload) else A.slot i⟩

/-- The C routine `scan_beginlabel()` (poincare.c 2114-2117):
`scan_label(infile,st,1,...)` — the begin label always goes to slot 1. -/
def scan_beginlabel (A : LabelArrays) (coordnum payload : ℕ) : LabelArrays :=
  scan_label A 1 coordnum payload

/-- The C routine `scan_endlabel()` (poincare.c 2132-2135):
`scan_label(infile,st,MAX_NUM_LABELS+2,...)`. -/
def scan_endlabel (A : LabelArrays) (coordnum payload : ℕ) : LabelArrays :=
  scan_label A (MAX_NUM_LABELS + 2) coordnum payload

/-- The C routine `scan_for_tickmarklabel()` (poincare.c 2465-2473) on a
found tick label: `numlabels++` followed by
`scan_label(infileptr,st,numlabels,...)` — the n-th tick label of a
record goes to slot n, with no guard against the reserved slots. -/
def scan_for_tickmarklabel (A : LabelArrays) (coordnum payload : ℕ) :
    LabelArrays :=
  let A' : LabelArrays := ⟨A.numlabels + 1, A.slot⟩
  scan_label A' A'.numlabels coordnum payload

/- ----------------------------------------------------------------- -/
/-  Record scanning at end of file (lines 1953-1961, 2153-2174,
    2679-2687).                                                       -/
/- ----------------------------------------------------------------- -/

/-- A token of the trajectory-file stream as the scanning loop of
`write_scanned_trajectories()` sees it after a `p`: a full numeric Stokes
triplet, the record terminator `q`, or a token that `%f` cannot parse. -/
inductive Tok where
  | triplet
  | q
  | junk
deriving DecidableEq

/-- Outcome of the triplet-scanning loop of `write_scanned_trajectories()`
(poincare.c 2679-2687) under bounded fuel: the loop found the `q`
terminator (`done`, with the final `numcoords`), `scan_for_stokes_triplet()`
hit its `exit(1)` branch (`fault`), or the fuel ran out with the loop
still running (`spinning`, with the current `numcoords`). -/
inductive ScanOutcome where
  | done (numcoords : ℕ)
  | fault
  | spinning (numcoords : ℕ)
deriving DecidableEq

/-- The inner scanning loop
`while (!end_of_trajectory(infileptr)) { scan_for_stokes_triplet(...); ... }`
(poincare.c 2679-2687).  `end_of_trajectory()` (1953-1961) consumes a `q`
and stops the loop; at end of file `getc` returns EOF, which is not `q`,
so the loop continues.  `scan_for_stokes_triplet()` (2153-2174) guards
each field with `if (!fscanf(infileptr,"%f",&s_i)) exit(1)`: a token that
does not parse makes `fscanf` return 0 and trips the guard (`fault`), a
parsed triplet returns 1 and increments `numcoords` — and at end of file
`fscanf` returns EOF = -1, so `!fscanf(...)` is false, the guard does NOT
trip, and `numcoords` is incremented with nothing read. -/
def scan_triplets : ℕ → List Tok → ℕ → ScanOutcome
  | 0, _, n => ScanOutcome.spinning n
  | _ + 1, Tok.q :: _, n => ScanOutcome.done n
  | fuel + 1, Tok.triplet :: rest, n => scan_triplets fuel rest (n + 1)
  | _ + 1, Tok.junk :: _, _ => ScanOutcome.fault
  | fuel + 1, [], n => scan_triplets fuel [] (n + 1)

/- ----------------------------------------------------------------- -/
/-  Concrete instances used by witnesses and counterexamples.         -/
/- ----------------------------------------------------------------- -/

/-- A concrete classified trajectory with 3 points and flags
hidden, visible, hidden. -/
def stHVH : StokeTraject := ⟨3, fun k => k == 2⟩

/-- The three input points of the end-to-end scenario,
`p 1 0 0 / 0 1 0 / -1 0 0 q`. -/
noncomputable def scenarioPts : List (ℝ × ℝ × ℝ) :=
  [(1, 0, 0), (0, 1, 0), (-1, 0, 0)]

/-- The classified trajectory the end-to-end scenario produces: 3 points,
flags visible, visible, hidden. -/
def stVVH : StokeTraject := ⟨3, fun k => decide (k = 1 ∨ k = 2)⟩

/- ================================================================= -/
/-  Theorems.                                                         -/
/- ================================================================= -/

theorem bool_eq_not_of_ne {a b : Bool} (h : a ≠ b) : a = !b := by
  cases a <;> cases b <;> simp_all

/-- Once the in-loop `kb` has caught up with `ka`, the inner while loop
exits immediately with the current `k`. -/
theorem subtraj_scan_exit (st : StokeTraject) (c' : Bool)
    (fuel k ka kb : ℕ) (h : ka ≤ kb) :
    subtraj_scan st c' fuel k ka kb = k := by
  cases fuel with
  | zero => rfl
  | succ f =>
      simp only [subtraj_scan]
      rw [if_neg]
      intro hcond
      omega

/-- Behaviour of the inner while loop when entered at the start `ka` of a
run of class `c`: it advances `k` over the run and stops at the first
index of the other class (where `point_just_became` of the other class
fires), or at `numcoords + 1` when the run reaches the end of the
trajectory. -/
theorem subtraj_scan_spec (st : StokeTraject) (c : Bool) (ka : ℕ)
    (hka1 : 1 ≤ ka) (_hkaN : ka ≤ st.numcoords) (hvka : st.visible ka = c) :
    ∀ fuel k, ka ≤ k → k ≤ st.numcoords + 1 →
      (∀ j, ka ≤ j → j < k → st.visible j = c) →
      st.numcoords + 2 ≤ fuel + k →
      k ≤ subtraj_scan st (!c) fuel k ka (ka - 1) ∧
      subtraj_scan st (!c) fuel k ka (ka - 1) ≤ st.numcoords + 1 ∧
      (∀ j, ka ≤ j → j < subtraj_scan st (!c) fuel k ka (ka - 1) →
        st.visible j = c) ∧
      (subtraj_scan st (!c) fuel k ka (ka - 1) = st.numcoords + 1 ∨
        (subtraj_scan st (!c) fuel k ka (ka - 1) ≤ st.numcoords ∧
         st.visible (subtraj_scan st (!c) fuel k ka (ka - 1)) = !c)) := by
  intro fuel
  induction fuel with
  | zero =>
      intro k _ hk2 _ hfuel
      omega
  | succ f ih =>
      intro k hk1 hk2 hpre hfuel
      by_cases hk : k ≤ st.numcoords
      · have hcond : k ≤ st.numcoords ∧ ka - 1 < ka := ⟨hk, by omega⟩
        by_cases hv : st.visible k = c
        · have hpred : ¬ just_became st (!c) k = true := by
            unfold just_became
            by_cases h1 : k = 1
            · rw [if_pos h1]
              subst h1
              rw [hv]
              cases c <;> simp
            · rw [if_neg h1]
              rw [hv]
              cases c <;> simp
          have heq : subtraj_scan st (!c) (f + 1) k ka (ka - 1)
              = subtraj_scan st (!c) f (k + 1) ka (ka - 1) := by
            simp only [subtraj_scan]
            rw [if_pos hcond, if_neg hpred]
          have hpre' : ∀ j, ka ≤ j → j < k + 1 → st.visible j = c := by
            intro j hj1 hj2
            by_cases hjk : j = k
            · rw [hjk]; exact hv
            · exact hpre j hj1 (by omega)
          rw [heq]
          obtain ⟨ha, hb, hc, hd⟩ := ih (k + 1) (by omega) (by omega) hpre' (by omega)
          exact ⟨by omega, hb, hc, hd⟩
        · have hkne : k ≠ ka := fun h => hv (h ▸ hvka)
          have hkgt : ka < k := lt_of_le_of_ne hk1 (Ne.symm hkne)
          have h1 : k ≠ 1 := by omega
          have hvk : st.visible k = !c := bool_eq_not_of_ne hv
          have hprev : st.visible (k - 1) = c := hpre (k - 1) (by omega) (by omega)
          have hpred : just_became st (!c) k = true := by
            unfold just_became
            rw [if_neg h1, hvk, hprev]
            cases c <;> simp
          have heq : subtraj_scan st (!c) (f + 1) k ka (ka - 1)
              = subtraj_scan st (!c) f k ka (k - 1) := by
            simp only [subtraj_scan]
            rw [if_pos hcond, if_pos hpred]
          rw [heq, subtraj_scan_exit st (!c) f k ka (k - 1) (by omega)]
          exact ⟨le_refl k, by omega, hpre, Or.inr ⟨hk, hvk⟩⟩
      · have heq : subtraj_scan st (!c) (f + 1) k ka (ka - 1) = k := by
          simp only [subtraj_scan]
          rw [if_neg]
          intro hcond
          exact hk hcond.1
        rw [heq]
        exact ⟨le_refl k, by omega, hpre, Or.inl (by omega)⟩

theorem vprod_neg (s1 s2 s3 psi phi : ℝ) :
    vprod (-s1) (-s2) (-s3) psi phi = -vprod s1 s2 s3 psi phi := by
  unfold vprod; ring

theorem vprod_psi0_phi0 (s1 s2 s3 : ℝ) : vprod s1 s2 s3 0 0 = s1 := by
  unfold vprod; simp

theorem core_sweep_aux_zero (st : StokeTraject) (c : Bool) (k : ℕ) :
    core_sweep_aux st c 0 k = [] := rfl

theorem core_sweep_aux_high (st : StokeTraject) (c : Bool) (f k : ℕ)
    (hk : ¬ k ≤ st.numcoords) :
    core_sweep_aux st c (f + 1) k = [] := by
  simp only [core_sweep_aux]
  rw [if_neg hk]

theorem core_sweep_aux_skip (st : StokeTraject) (c : Bool) (f k : ℕ)
    (hk : k ≤ st.numcoords) (hstart : ¬ just_became st c k = true) :
    core_sweep_aux st c (f + 1) k = core_sweep_aux st c f (k + 1) := by
  simp only [core_sweep_aux]
  rw [if_pos hk, if_neg hstart]

theorem core_sweep_aux_start (st : StokeTraject) (c : Bool) (f k : ℕ)
    (hk : k ≤ st.numcoords) (hstart : just_became st c k = true) :
    core_sweep_aux st c (f + 1) k
      = (k, subtraj_scan st (!c) (st.numcoords + 2) k k (k - 1) - 1)
        :: core_sweep_aux st c f
            (subtraj_scan st (!c) (st.numcoords + 2) k k (k - 1) + 1) := by
  simp only [core_sweep_aux]
  rw [if_pos hk, if_pos hstart]

/-- Combined loop invariant of the outer sweep, for either class `c`:
started at position `k` (with no run of class `c` straddling `k` from the
left), the sweep emits core ranges that (a) cover each index
`i ∈ [k, numcoords]` exactly once iff point `i` is of class `c`, and (b)
are exactly the maximal blocks of class `c`: in range, of class `c`
throughout, with points of the other class (or the trajectory ends)
immediately on both sides. -/
theorem core_sweep_aux_spec (st : StokeTraject) (c : Bool) :
    ∀ fuel k, st.numcoords + 1 ≤ fuel + k → 1 ≤ k →
      (st.numcoords + 1 ≤ k ∨ k = 1 ∨ st.visible (k - 1) = !c) →
      (∀ i, (core_sweep_aux st c fuel k).countP
            (fun r => decide (r.1 ≤ i ∧ i ≤ r.2))
          = if k ≤ i ∧ i ≤ st.numcoords ∧ st.visible i = c then 1 else 0) ∧
      (∀ r ∈ core_sweep_aux st c fuel k,
        k ≤ r.1 ∧ 1 ≤ r.1 ∧ r.1 ≤ r.2 ∧ r.2 ≤ st.numcoords ∧
        (∀ j, r.1 ≤ j → j ≤ r.2 → st.visible j = c) ∧
        (r.1 = 1 ∨ st.visible (r.1 - 1) = !c) ∧
        (r.2 = st.numcoords ∨ st.visible (r.2 + 1) = !c)) := by
  intro fuel
  induction fuel with
  | zero =>
      intro k hfuel hk1 _
      constructor
      · intro i
        rw [core_sweep_aux_zero]
        simp only [List.countP_nil]
        rw [if_neg]
        rintro ⟨h1, h2, _⟩
        omega
      · intro r hr
        rw [core_sweep_aux_zero] at hr
        simp at hr
  | succ f ih =>
      intro k hfuel hk1 hinv
      by_cases hk : k ≤ st.numcoords
      · have hinv2 : k = 1 ∨ st.visible (k - 1) = !c := by
          rcases hinv with h | h | h
          · omega
          · exact Or.inl h
          · exact Or.inr h
        by_cases hv : st.visible k = c
        · -- a run of class c starts at k
          have hstart : just_became st c k = true := by
            unfold just_became
            by_cases h1 : k = 1
            · subst h1
              rw [if_pos rfl, hv]
              cases c <;> simp
            · have h2 : st.visible (k - 1) = !c := by
                rcases hinv2 with h | h
                · exact absurd h h1
                · exact h
              rw [if_neg h1, hv, h2]
              cases c <;> simp
          obtain ⟨hle, hleN, hrun, hend⟩ :=
            subtraj_scan_spec st c k hk1 hk hv (st.numcoords + 2) k
              le_rfl (by omega) (by intro j hj1 hj2; exact absurd hj2 (by omega))
              (by omega)
          rw [core_sweep_aux_start st c f k hk hstart]
          set k2 := subtraj_scan st (!c) (st.numcoords + 2) k k (k - 1)
            with hk2def
          have hkk2 : k < k2 := by
            rcases hend with h | ⟨h, hvk2⟩
            · omega
            · by_contra hcon
              have heq : k2 = k := by omega
              rw [heq, hv] at hvk2
              cases c <;> simp at hvk2
          have hinvNext : st.numcoords + 1 ≤ k2 + 1 ∨ k2 + 1 = 1 ∨
              st.visible (k2 + 1 - 1) = !c := by
            rcases hend with h | ⟨h, hvk2⟩
            · exact Or.inl (by omega)
            · right; right; simpa using hvk2
          obtain ⟨ihc, ihr⟩ := ih (k2 + 1) (by omega) (by omega) hinvNext
          constructor
          · intro i
            simp only [List.countP_cons, ihc i]
            rcases Nat.lt_or_ge i k with hik | hik
            · have hA1 : ¬(k2 + 1 ≤ i ∧ i ≤ st.numcoords ∧
                  st.visible i = c) := fun h => absurd h.1 (by omega)
              have hA2 : decide (k ≤ i ∧ i ≤ k2 - 1) = false :=
                decide_eq_false (fun h => absurd h.1 (by omega))
              have hA3 : ¬(k ≤ i ∧ i ≤ st.numcoords ∧ st.visible i = c) :=
                fun h => absurd h.1 (by omega)
              rw [if_neg hA1, hA2, if_neg hA3]
              simp
            · rcases Nat.lt_or_ge i k2 with hik2 | hik2
              · have hvc : st.visible i = c := hrun i hik hik2
                have hB1 : ¬(k2 + 1 ≤ i ∧ i ≤ st.numcoords ∧
                    st.visible i = c) := fun h => absurd h.1 (by omega)
                have hB2 : decide (k ≤ i ∧ i ≤ k2 - 1) = true :=
                  decide_eq_true ⟨hik, by omega⟩
                have hB3 : k ≤ i ∧ i ≤ st.numcoords ∧ st.visible i = c :=
                  ⟨hik, by rcases hend with h | ⟨h, _⟩ <;> omega, hvc⟩
                rw [if_neg hB1, hB2, if_pos hB3]
                simp
              · rcases eq_or_lt_of_le hik2 with hEq | hGt
                · have hC1 : ¬(k2 + 1 ≤ i ∧ i ≤ st.numcoords ∧
                      st.visible i = c) := fun h => absurd h.1 (by omega)
                  have hC2 : decide (k ≤ i ∧ i ≤ k2 - 1) = false :=
                    decide_eq_false (fun h => absurd h.2 (by omega))
                  have hC3 : ¬(k ≤ i ∧ i ≤ st.numcoords ∧
                      st.visible i = c) := by
                    rcases hend with h | ⟨hle2, hvk2⟩
                    · rintro ⟨h1, h2, _⟩
                      omega
                    · rintro ⟨h1, h2, h3⟩
                      rw [← hEq] at h3
                      rw [hvk2] at h3
                      cases c <;> simp at h3
                  rw [if_neg hC1, hC2, if_neg hC3]
                  simp
                · have hD2 : decide (k ≤ i ∧ i ≤ k2 - 1) = false :=
                    decide_eq_false (fun h => absurd h.2 (by omega))
                  rw [hD2]
                  simp only [Bool.false_eq_true, if_false, add_zero]
                  by_cases hD : i ≤ st.numcoords ∧ st.visible i = c
                  · rw [if_pos (show k2 + 1 ≤ i ∧ i ≤ st.numcoords ∧
                          st.visible i = c from ⟨by omega, hD.1, hD.2⟩),
                        if_pos (show k ≤ i ∧ i ≤ st.numcoords ∧
                          st.visible i = c from ⟨by omega, hD.1, hD.2⟩)]
                  · rw [if_neg (show ¬(k2 + 1 ≤ i ∧ i ≤ st.numcoords ∧
                          st.visible i = c) from fun h => hD ⟨h.2.1, h.2.2⟩),
                        if_neg (show ¬(k ≤ i ∧ i ≤ st.numcoords ∧
                          st.visible i = c) from fun h => hD ⟨h.2.1, h.2.2⟩)]
          · intro r hr
            rcases List.mem_cons.mp hr with hr | hr
            · rw [hr]
              refine ⟨le_rfl, hk1, by omega, by omega, ?_, ?_, ?_⟩
              · intro j hj1 hj2
                exact hrun j hj1 (by omega)
              · exact hinv2
              · rcases hend with h | ⟨h1, h2⟩
                · left
                  omega
                · right
                  have hplus : k2 - 1 + 1 = k2 := by omega
                  show st.visible (k2 - 1 + 1) = !c
                  rw [hplus]
                  exact h2
            · obtain ⟨ha, hb, hc', hd, he, hf2, hg⟩ := ihr r hr
              exact ⟨by omega, hb, hc', hd, he, hf2, hg⟩
        · -- no run of class c starts at k: skip to k + 1
          have hvk : st.visible k = !c := bool_eq_not_of_ne hv
          have hstart : ¬ just_became st c k = true := by
            unfold just_became
            by_cases h1 : k = 1
            · subst h1
              rw [if_pos rfl, hvk]
              cases c <;> simp
            · rw [if_neg h1, hvk]
              cases c <;> simp
          rw [core_sweep_aux_skip st c f k hk hstart]
          obtain ⟨ihc, ihr⟩ := ih (k + 1) (by omega) (by omega)
            (Or.inr (Or.inr (by simpa using hvk)))
          constructor
          · intro i
            rw [ihc i]
            by_cases h4 : i = k
            · subst h4
              have hn1 : ¬(i + 1 ≤ i ∧ i ≤ st.numcoords ∧
                  st.visible i = c) := fun h => absurd h.1 (by omega)
              have hn2 : ¬(i ≤ i ∧ i ≤ st.numcoords ∧
                  st.visible i = c) := by
                rintro ⟨_, _, h3⟩
                rw [hvk] at h3
                cases c <;> simp at h3
              rw [if_neg hn1, if_neg hn2]
            · by_cases h5 : k ≤ i ∧ i ≤ st.numcoords ∧ st.visible i = c
              · rw [if_pos ⟨by omega, h5.2.1, h5.2.2⟩, if_pos h5]
              · rw [if_neg (fun h => h5 ⟨by omega, h.2.1, h.2.2⟩),
                    if_neg h5]
          · intro r hr
            obtain ⟨ha, hb, hc', hd, he, hf2, hg⟩ := ihr r hr
            exact ⟨by omega, hb, hc', hd, he, hf2, hg⟩
      · rw [core_sweep_aux_high st c f k hk]
        constructor
        · intro i
          simp only [List.countP_nil]
          rw [if_neg]
          rintro ⟨h1, h2, _⟩
          omega
        · intro r hr
          simp at hr

/-- The literal visible sweep is the core sweep for the visible class
with each emitted run put through the boundary extension of poincare.c
lines 2388-2389 — and nothing else differs between the two routines. -/
theorem add_visible_eq_map (st : StokeTraject) :
    ∀ fuel k, add_visible_subtrajectories st fuel k
      = (core_sweep_aux st true fuel k).map (extend_run st) := by
  intro fuel
  induction fuel with
  | zero => intro k; rfl
  | succ f ih =>
      intro k
      simp only [add_visible_subtrajectories, core_sweep_aux, Bool.not_true]
      by_cases hk : k ≤ st.numcoords
      · rw [if_pos hk, if_pos hk]
        by_cases hstart : just_became st true k = true
        · rw [if_pos hstart, if_pos hstart]
          simp only [List.map_cons]
          rw [ih]
          rfl
        · rw [if_neg hstart, if_neg hstart]
          exact ih (k + 1)
      · rw [if_neg hk, if_neg hk]
        rfl

/-- C3: the core index ranges of the hidden runs and of the visible runs
together cover every index `1..N` exactly once — each index of a
classified trajectory lies in exactly one emitted core range. -/
theorem C3_core_ranges_partition (st : StokeTraject) (i : ℕ)
    (h1 : 1 ≤ i) (h2 : i ≤ st.numcoords) :
    (add_hidden_subtrajectories st ++ visible_core_runs st).countP
        (fun r => decide (r.1 ≤ i ∧ i ≤ r.2)) = 1 := by
  rw [List.countP_append]
  unfold add_hidden_subtrajectories visible_core_runs
  obtain ⟨hch, _⟩ := core_sweep_aux_spec st false (st.numcoords + 1) 1
    (by omega) le_rfl (Or.inr (Or.inl rfl))
  obtain ⟨hcv, _⟩ := core_sweep_aux_spec st true (st.numcoords + 1) 1
    (by omega) le_rfl (Or.inr (Or.inl rfl))
  rw [hch i, hcv i]
  cases hvi : st.visible i
  · rw [if_pos ⟨h1, h2, rfl⟩, if_neg (fun h => absurd h.2.2 (by simp))]
  · rw [if_neg (fun h => absurd h.2.2 (by simp)), if_pos ⟨h1, h2, rfl⟩]

/-- Witness for C3 at a concrete trajectory (3 points, flags hidden,
visible, hidden) and index 2. -/
theorem C3_core_ranges_partition_witness :
    (add_hidden_subtrajectories stHVH ++ visible_core_runs stHVH).countP
        (fun r => decide (r.1 ≤ 2 ∧ 2 ≤ r.2)) = 1 :=
  C3_core_ranges_partition stHVH 2 (by decide) (by decide)

/-- C4: only visible runs are extended, by exactly one sample on each
side with the boundary guards (`ka -= 1` only when `ka > 1`, `kb += 1`
only when `kb < N`); every emitted visible range stays within `1..N`; and
the hidden runs are emitted with their exact core boundaries — each is a
maximal hidden block, hidden throughout, flanked by visible points or the
trajectory ends. -/
theorem C4_boundary_extension (st : StokeTraject) :
    visible_runs st = (visible_core_runs st).map (extend_run st) ∧
    (∀ r ∈ visible_runs st,
      1 ≤ r.1 ∧ r.1 ≤ r.2 ∧ r.2 ≤ st.numcoords) ∧
    (∀ r ∈ add_hidden_subtrajectories st,
      1 ≤ r.1 ∧ r.1 ≤ r.2 ∧ r.2 ≤ st.numcoords ∧
      (∀ j, r.1 ≤ j → j ≤ r.2 → st.visible j = false) ∧
      (r.1 = 1 ∨ st.visible (r.1 - 1) = true) ∧
      (r.2 = st.numcoords ∨ st.visible (r.2 + 1) = true)) := by
  obtain ⟨_, hrh⟩ := core_sweep_aux_spec st false (st.numcoords + 1) 1
    (by omega) le_rfl (Or.inr (Or.inl rfl))
  obtain ⟨_, hrv⟩ := core_sweep_aux_spec st true (st.numcoords + 1) 1
    (by omega) le_rfl (Or.inr (Or.inl rfl))
  refine ⟨add_visible_eq_map st (st.numcoords + 1) 1, ?_, ?_⟩
  · intro r hr
    rw [show visible_runs st = (visible_core_runs st).map (extend_run st)
        from add_visible_eq_map st (st.numcoords + 1) 1] at hr
    obtain ⟨r', hr', hext⟩ := List.mem_map.mp hr
    obtain ⟨_, hb, hc', hd, _, _, _⟩ := hrv r' hr'
    rw [← hext]
    unfold extend_run
    constructor
    · by_cases h : 1 < r'.1 <;> simp [h] <;> omega
    constructor
    · have e1 : (if 1 < r'.1 then r'.1 - 1 else r'.1) ≤ r'.1 := by
        by_cases h : 1 < r'.1 <;> simp [h]
      have e2 : r'.2 ≤ (if r'.2 < st.numcoords then r'.2 + 1 else r'.2) := by
        by_cases h : r'.2 < st.numcoords <;> simp [h]
      omega
    · by_cases h : r'.2 < st.numcoords <;> simp [h] <;> omega
  · intro r hr
    obtain ⟨_, hb, hc', hd, he, hf2, hg⟩ := hrh r hr
    refine ⟨hb, hc', hd, he, ?_, ?_⟩
    · simpa using hf2
    · simpa using hg

/-- C5 counterexample: in the trajectory with flags hidden, visible,
hidden, the visible run has core range `(2,2)` — length 1 — yet it is NOT
dropped: after the boundary extension it is emitted as one drawable
sub-path through points 1,2,3. -/
theorem C5_counterexample :
    visible_core_runs stHVH = [(2, 2)] ∧
    emit_visible stHVH = [⟨true, [1, 2, 3]⟩] := by
  constructor
  · rfl
  · rfl

/-- C5 (amended): a hidden run is emitted as exactly one drawable
sub-path when its (exact) range has length at least 2 and is dropped when
it has length 1; a visible run is emitted as exactly one drawable
sub-path whenever the trajectory has at least 2 samples — the ±1 boundary
extension makes its emitted range at least 2 long even when the core
length is 1 — and is dropped only in a 1-sample trajectory. -/
theorem C5_subpath_per_run (st : StokeTraject) :
    (∀ r ∈ add_hidden_subtrajectories st,
      (add_subtrajectory r.1 r.2 false).length
        = if 2 ≤ r.2 + 1 - r.1 then 1 else 0) ∧
    (∀ r ∈ visible_core_runs st,
      (add_subtrajectory (extend_run st r).1 (extend_run st r).2
          true).length
        = if 2 ≤ st.numcoords then 1 else 0) := by
  obtain ⟨_, hrv⟩ := core_sweep_aux_spec st true (st.numcoords + 1) 1
    (by omega) le_rfl (Or.inr (Or.inl rfl))
  constructor
  · intro r _
    unfold add_subtrajectory
    by_cases h : r.1 < r.2
    · rw [if_pos h, if_pos (by omega)]
      rfl
    · rw [if_neg h, if_neg (by omega)]
      rfl
  · intro r hr
    obtain ⟨_, hb, hc', hd, _, _, _⟩ := hrv r hr
    unfold add_subtrajectory extend_run
    by_cases hN : 2 ≤ st.numcoords
    · have hlt : (if 1 < r.1 then r.1 - 1 else r.1)
          < (if r.2 < st.numcoords then r.2 + 1 else r.2) := by
        by_cases h1 : 1 < r.1 <;> by_cases h2 : r.2 < st.numcoords <;>
          simp [h1, h2] <;> omega
      rw [if_pos hlt, if_pos hN]
      rfl
    · have hN1 : st.numcoords = 1 := by omega
      have hr1 : r.1 = 1 := by omega
      have hr2 : r.2 = 1 := by omega
      have hnlt : ¬ (if 1 < r.1 then r.1 - 1 else r.1)
          < (if r.2 < st.numcoords then r.2 + 1 else r.2) := by
        rw [hr1, hr2, hN1]
        simp
      rw [if_neg hnlt, if_neg hN]
      rfl

/-- C1: the classifier returns visible exactly when
`s1·cosψ·cosφ − s2·sinψ·cosφ + s3·sinφ ≥ 0`; a point whose scalar is 0
(on the terminator) is classified visible, and negating a nonzero scalar
flips the classification. -/
theorem C1_visibility_classifier (s1 s2 s3 psi phi : ℝ) :
    (visible s1 s2 s3 psi phi = true ↔ 0 ≤ vprod s1 s2 s3 psi phi) ∧
    (vprod s1 s2 s3 psi phi = 0 → visible s1 s2 s3 psi phi = true) ∧
    (vprod s1 s2 s3 psi phi ≠ 0 →
      visible (-s1) (-s2) (-s3) psi phi = !visible s1 s2 s3 psi phi) := by
  refine ⟨?_, ?_, ?_⟩
  · unfold visible
    by_cases h : 0 ≤ vprod s1 s2 s3 psi phi <;> simp [h]
  · intro h
    unfold visible
    rw [h]
    simp
  · intro h
    unfold visible
    rw [vprod_neg]
    by_cases hp : 0 ≤ vprod s1 s2 s3 psi phi
    · have hlt : ¬ 0 ≤ -vprod s1 s2 s3 psi phi := by
        rcases lt_or_eq_of_le hp with h' | h'
        · simp; linarith
        · exact absurd h'.symm h
      simp [hp, hlt]
    · have hgt : 0 ≤ -vprod s1 s2 s3 psi phi := by push_neg at hp; linarith
      simp [hp, hgt]

/-- C2: with normalization disabled the projection returns exactly
`x = s1·sinψ + s2·cosψ`, `y = −s1·cosψ·sinφ + s2·sinψ·sinφ + s3·cosφ`;
in particular `project((0,1,0),0,0) = (1,0)` and
`project((0,0,1),0,0) = (0,1)`. -/
theorem C2_projection_formula (s1 s2 s3 psi phi : ℝ) :
    get_screen_coordinates s1 s2 s3 psi phi false
      = (s1 * Real.sin psi + s2 * Real.cos psi,
         -s1 * Real.cos psi * Real.sin phi
           + s2 * Real.sin psi * Real.sin phi + s3 * Real.cos phi) ∧
    get_screen_coordinates 0 1 0 0 0 false = (1, 0) ∧
    get_screen_coordinates 0 0 1 0 0 false = (0, 1) := by
  refine ⟨rfl, ?_, ?_⟩ <;>
    simp [get_screen_coordinates]

theorem emit_hidden_cls (st : StokeTraject) :
    ∀ p ∈ emit_hidden st, p.cls = false := by
  intro p hp
  unfold emit_hidden at hp
  obtain ⟨r, _, hpr⟩ := List.mem_flatMap.mp hp
  unfold add_subtrajectory at hpr
  by_cases h : r.1 < r.2
  · rw [if_pos h] at hpr
    rw [List.mem_singleton.mp hpr]
  · rw [if_neg h] at hpr
    simp at hpr

theorem emit_visible_cls (st : StokeTraject) :
    ∀ p ∈ emit_visible st, p.cls = true := by
  intro p hp
  unfold emit_visible at hp
  obtain ⟨r, _, hpr⟩ := List.mem_flatMap.mp hp
  unfold add_subtrajectory at hpr
  by_cases h : r.1 < r.2
  · rw [if_pos h] at hpr
    rw [List.mem_singleton.mp hpr]
  · rw [if_neg h] at hpr
    simp at hpr

/-- C6: `main()` runs the whole input through the hidden pass first and
through the visible pass second; the resulting sub-path sequence is all
trajectories' hidden-class sub-paths followed by all trajectories'
visible-class sub-paths, so a hidden-class sub-path never appears after a
visible-class one. -/
theorem C6_hidden_pass_before_visible_pass (trajs : List StokeTraject) :
    main_output trajs
      = trajs.flatMap emit_hidden ++ trajs.flatMap emit_visible ∧
    (∀ p ∈ write_scanned_trajectories trajs HIDDEN, p.cls = HIDDEN) ∧
    (∀ p ∈ write_scanned_trajectories trajs VISIBLE, p.cls = VISIBLE) ∧
    (∀ i j : ℕ, i < j → ∀ p q : SubPath,
      (main_output trajs)[i]? = some p →
      (main_output trajs)[j]? = some q →
      p.cls = VISIBLE → q.cls = VISIBLE) := by
  have hH : write_scanned_trajectories trajs HIDDEN
      = trajs.flatMap emit_hidden := by
    unfold write_scanned_trajectories add_scanned_trajectory
    simp
  have hV : write_scanned_trajectories trajs VISIBLE
      = trajs.flatMap emit_visible := by
    unfold write_scanned_trajectories add_scanned_trajectory
    simp [HIDDEN, VISIBLE]
  have hmo : main_output trajs
      = trajs.flatMap emit_hidden ++ trajs.flatMap emit_visible := by
    unfold main_output
    rw [hH, hV]
  have hclsH : ∀ p ∈ trajs.flatMap emit_hidden, p.cls = false := by
    intro p hp
    obtain ⟨st, _, hpm⟩ := List.mem_flatMap.mp hp
    exact emit_hidden_cls st p hpm
  have hclsV : ∀ p ∈ trajs.flatMap emit_visible, p.cls = true := by
    intro p hp
    obtain ⟨st, _, hpm⟩ := List.mem_flatMap.mp hp
    exact emit_visible_cls st p hpm
  refine ⟨hmo, ?_, ?_, ?_⟩
  · rw [hH]
    exact hclsH
  · rw [hV]
    exact hclsV
  · intro i j hij p q hp hq hpv
    rw [hmo] at hp hq
    by_cases hi : i < (trajs.flatMap emit_hidden).length
    · rw [List.getElem?_append_left hi] at hp
      have hpm : p ∈ trajs.flatMap emit_hidden := List.getElem?_mem hp
      rw [hclsH p hpm] at hpv
      simp [VISIBLE] at hpv
    · push_neg at hi
      rw [List.getElem?_append_right (by omega)] at hq
      exact hclsV q (List.getElem?_mem hq)

/-- C9 counterexample: the third point `(-1,0,0)` of the scenario has
visibility score `vprod = -1 < 0` at `ψ = φ = 0`, so its flag is hidden —
the claim that all three points come out visible (all scores
non-negative) is false on the code. -/
theorem C9_counterexample :
    vprod (-1) 0 0 0 0 = -1 ∧ visible (-1) 0 0 0 0 = false := by
  have h : vprod (-1) 0 0 0 0 = -1 := by
    rw [vprod_psi0_phi0]
  refine ⟨h, ?_⟩
  unfold visible
  rw [h, if_neg (by norm_num)]

/-- C9 (amended): the record `p 1 0 0 / 0 1 0 / -1 0 0 q` at
`ψ = φ = 0` with normalization disabled yields one trajectory of 3 points
with flags visible, visible, hidden; the hidden sweep finds the single
core run `(3,3)`, which has length 1 and is dropped (zero hidden
sub-paths); the visible sweep finds the core run `(1,2)`, extends it to
`(1,3)`, and emits exactly one visible sub-path through the 3 points. -/
theorem C9_end_to_end_scenario :
    sort_out_visible_and_hidden scenarioPts 0 0 = stVVH ∧
    stVVH.numcoords = 3 ∧
    stVVH.visible 1 = true ∧ stVVH.visible 2 = true ∧
    stVVH.visible 3 = false ∧
    add_hidden_subtrajectories stVVH = [(3, 3)] ∧
    emit_hidden stVVH = [] ∧
    visible_core_runs stVVH = [(1, 2)] ∧
    visible_runs stVVH = [(1, 3)] ∧
    emit_visible stVVH = [⟨true, [1, 2, 3]⟩] := by
  refine ⟨?_, by decide, by decide, by decide, by decide,
    rfl, rfl, rfl, rfl, rfl⟩
  unfold sort_out_visible_and_hidden scenarioPts stVVH
  congr 1
  funext k
  rcases k with _ | _ | _ | _ | k
  · rw [if_neg (fun h => absurd h.1 (by omega))]
    rfl
  · rw [if_pos ⟨le_rfl, by simp⟩]
    show visible 1 0 0 0 0 = decide (1 = 1 ∨ 1 = 2)
    unfold visible
    rw [vprod_psi0_phi0, if_pos (by norm_num)]
    rfl
  · rw [if_pos ⟨by omega, by simp⟩]
    show visible 0 1 0 0 0 = decide (2 = 1 ∨ 2 = 2)
    unfold visible
    rw [vprod_psi0_phi0, if_pos (by norm_num)]
    rfl
  · rw [if_pos ⟨by omega, by simp⟩]
    show visible (-1) 0 0 0 0 = decide (3 = 1 ∨ 3 = 2)
    unfold visible
    rw [vprod_psi0_phi0, if_neg (by norm_num)]
    rfl
  · rw [if_neg (by
      rintro ⟨_, h2⟩
      simp at h2)]
    have hnp : ¬ (k + 4 = 1 ∨ k + 4 = 2) := by
      rintro (h | h) <;> omega
    rw [decide_eq_false hnp]

/-- C7 counterexample: the codes `rt`, `urt` and `lrt` named by the claim
are rejected by `scan_label()` (they hit the `Invalid string ... exit(1)`
branch), while the code accepts `rgt` instead. -/
theorem C7_counterexample :
    scan_label_position "rt" = none ∧
    scan_label_position "urt" = none ∧
    scan_label_position "lrt" = none ∧
    scan_label_position "rgt" = some RIGHTLABEL := by
  refine ⟨rfl, rfl, rfl, rfl⟩

/-- C7 (amended): the position codes accepted when scanning a
begin/end/tick label are exactly `top`, `ulft`, `lft`, `llft`, `bot`,
`lrgt`, `rgt`, `urgt` (right-hand codes spelled with a `g`); any other
position string is a hard parse error. -/
theorem C7_label_position_codes (s : String) :
    (scan_label_position s).isSome = true ↔
      s ∈ ["top", "ulft", "lft", "llft", "bot", "lrgt", "rgt", "urgt"] := by
  unfold scan_label_position
  split_ifs with h1 h2 h3 h4 h5 h6 h7 h8 <;> simp_all

theorem scan_triplets_eof (fuel n : ℕ) :
    scan_triplets fuel [] n = ScanOutcome.spinning (n + fuel) := by
  induction fuel generalizing n with
  | zero => rfl
  | succ f ih =>
      show scan_triplets f [] (n + 1) = _
      rw [ih]
      congr 1
      omega

/-- C8: on an input whose `p` block is never closed by `q` (end of file
reached first), the scanning loop of `write_scanned_trajectories()` never
terminates with an error: `fscanf` returns EOF = -1 at end of file, the
guard `if (!fscanf(...))` does not trip, and the loop keeps incrementing
`numcoords` forever — it neither reports a malformed-input failure nor
stops, contradicting the claimed `MalformedInputError`.  (A genuinely
unparsable token, by contrast, does trip the guard.) -/
theorem C8_missing_terminator_no_error (fuel : ℕ) :
    scan_triplets (fuel + 1) [Tok.triplet] 0
        = ScanOutcome.spinning (fuel + 1) ∧
    scan_triplets 1 [Tok.junk] 0 = ScanOutcome.fault ∧
    scan_triplets 1 [Tok.q] 0 = ScanOutcome.done 0 := by
  refine ⟨?_, rfl, rfl⟩
  show scan_triplets fuel [] 1 = _
  rw [scan_triplets_eof]
  congr 1
  omega

/-- C10: the first tick-mark label of a record is stored in slot 1
(`scan_for_tickmarklabel()` increments `numlabels` from 0 to 1 and calls
`scan_label` with that index), which is exactly the slot
`scan_beginlabel()` reserves for the begin label — the begin label is
overwritten, contradicting the reserved-slot invariant documented at
`initialize_stoke_trajectory()` and enforced only by the dead
`scan_ticklabel()` guard. -/
theorem C10_begin_label_overwritten :
    (scan_beginlabel init_labels 1 10).slot 1 = some (1, 10) ∧
    (scan_for_tickmarklabel (scan_beginlabel init_labels 1 10) 2 20).slot 1
      = some (2, 20) ∧
    (scan_for_tickmarklabel (scan_beginlabel init_labels 1 10) 2 20).slot 1
      ≠ some (1, 10) := by
  refine ⟨rfl, rfl, by decide⟩

end Poincare
